import Mathlib

/-!
Verification of the bitmap and columnar-slice core of the `arrow-typing`
crate against its specification.

Bytes are modelled as natural numbers read through their low eight bits,
byte buffers and Rust slices as Lean lists, iterators as the lists they
produce, and panicking operations as `Option`-returning functions where
`none` stands for the panic.
-/

/-- Boolean view of the low eight bits of a byte, least significant bit
first, as produced by the `Bits` iterator of src/bitmap.rs walking one
byte. -/
def byteBits (b : Nat) : List Bool :=
  (List.range 8).map b.testBit

/-- Bit stream of a whole byte buffer in the order the `Bits` iterator of
src/bitmap.rs visits it: bytes in order, least significant bit first
within each byte. -/
def flatBits (raw : List Nat) : List Bool :=
  (raw.map byteBits).flatten

/-- Embedding of `Bitmap` from src/bitmap.rs: a borrowed byte buffer plus
the number of leading (`header_len`) and trailing (`trailer_len`) bits of
the buffer that carry no array element. -/
structure Bitmap where
  raw : List Nat
  header_len : Nat
  trailer_len : Nat
deriving DecidableEq

/-- Embedding of `Slice::len` for `Bitmap`:
`raw.len() * 8 - (header_len + trailer_len)`. -/
def Bitmap.len (b : Bitmap) : Nat :=
  8 * b.raw.length - (b.header_len + b.trailer_len)

/-- Embedding of the `Slice::is_empty` default method (`len() == 0`) for
`Bitmap`. -/
def Bitmap.is_empty (b : Bitmap) : Bool :=
  b.len == 0

/-- Embedding of `Bitmap::new`. The `none` result models both panic paths:
the `checked_sub` failure when `array_len` exceeds the bit capacity, and
the `assert!(trailer_len < 8)` failure. -/
def Bitmap.new (raw : List Nat) (array_len : Nat) : Option Bitmap :=
  if array_len ≤ 8 * raw.length ∧ 8 * raw.length - array_len < 8 then
    some { raw := raw, header_len := 0, trailer_len := 8 * raw.length - array_len }
  else
    none

/-- Embedding of `Bitmap::iter_cloned` (the `Bits` iterator starting at bit
`1 << header_len` of the first byte, truncated by `take(len())`): the
buffer's bit stream with the header bits dropped, truncated to the logical
length. -/
def Bitmap.iter_cloned (b : Bitmap) : List Bool :=
  ((flatBits b.raw).drop b.header_len).take b.len

/-- Embedding of `Bitmap::split_at` from src/bitmap.rs; `none` models the
`assert!(mid <= self.len())` panic. -/
def Bitmap.split_at (b : Bitmap) (mid : Nat) : Option (Bitmap × Bitmap) :=
  if mid ≤ b.len then
    let mid_bit := mid + b.header_len
    let num_head_bytes := (mid_bit + 7) / 8
    let head_raw := b.raw.take num_head_bytes
    let head : Bitmap :=
      { raw := head_raw
        header_len := b.header_len
        trailer_len := 8 * head_raw.length - mid_bit }
    let first_tail_byte := mid_bit / 8
    let tail_header := if mid_bit % 8 = 0 then 0 else 8 - head.trailer_len
    let tail : Bitmap :=
      { raw := b.raw.drop first_tail_byte
        header_len := tail_header
        trailer_len := b.trailer_len }
    some (head, tail)
  else
    none

/-- Structural invariant of a `Bitmap` as documented on its fields in
src/bitmap.rs, amended for the buffer-less empty bitmap produced by
`Bitmap::new(&[], 0)`: header and trailer each fit in a byte, the logical
length plus header and trailer exactly accounts for the buffer's bits, and
an empty bitmap has `header_len + trailer_len = 8` unless its buffer is
empty. -/
def Bitmap.Inv (b : Bitmap) : Prop :=
  b.header_len ≤ 7 ∧ b.trailer_len ≤ 7 ∧
    8 * b.raw.length = b.len + b.header_len + b.trailer_len ∧
    (b.len = 0 → b.header_len + b.trailer_len = 8 ∨ b.raw = [])

lemma byteBits_length (b : Nat) : (byteBits b).length = 8 := by
  simp [byteBits]

lemma flatBits_cons (b : Nat) (bs : List Nat) :
    flatBits (b :: bs) = byteBits b ++ flatBits bs := by
  simp [flatBits]

lemma flatBits_length (raw : List Nat) : (flatBits raw).length = 8 * raw.length := by
  induction raw with
  | nil => rfl
  | cons b bs ih =>
    rw [flatBits_cons, List.length_append, byteBits_length, ih, List.length_cons]
    omega

lemma flatBits_take (raw : List Nat) (k : Nat) :
    flatBits (raw.take k) = (flatBits raw).take (8 * k) := by
  induction raw generalizing k with
  | nil => simp [flatBits]
  | cons b bs ih =>
    cases k with
    | zero => simp [flatBits]
    | succ k =>
      rw [List.take_succ_cons, flatBits_cons, flatBits_cons, ih,
        List.take_append_eq_append_take, byteBits_length]
      have hb8 : (byteBits b).length ≤ 8 * (k + 1) := by rw [byteBits_length]; omega
      rw [List.take_of_length_le hb8]
      rw [(by omega : 8 * k = 8 * (k + 1) - 8)]

lemma flatBits_drop (raw : List Nat) (k : Nat) :
    flatBits (raw.drop k) = (flatBits raw).drop (8 * k) := by
  induction raw generalizing k with
  | nil => simp [flatBits]
  | cons b bs ih =>
    cases k with
    | zero => simp
    | succ k =>
      rw [List.drop_succ_cons, flatBits_cons, ih,
        List.drop_append_eq_append_drop, byteBits_length]
      have hb8 : (byteBits b).length ≤ 8 * (k + 1) := by rw [byteBits_length]; omega
      rw [List.drop_eq_nil_of_le hb8, List.nil_append]
      rw [(by omega : 8 * k = 8 * (k + 1) - 8)]

/-- Everything `Bitmap::split_at` guarantees on an in-bounds split of an
invariant-satisfying bitmap: the concrete head and tail bitmaps, their
lengths, the bit-for-bit concatenation law, and preservation of the
structural invariant. -/
lemma Bitmap.split_at_spec (raw : List Nat) (hd tl mid : Nat) (h7 : hd ≤ 7) (t7 : tl ≤ 7)
    (hmid : mid + hd + tl ≤ 8 * raw.length) :
    ∃ head tail, (Bitmap.mk raw hd tl).split_at mid = some (head, tail) ∧
      head.len = mid ∧ tail.len = (Bitmap.mk raw hd tl).len - mid ∧
      head.iter_cloned ++ tail.iter_cloned = (Bitmap.mk raw hd tl).iter_cloned ∧
      head.Inv ∧ tail.Inv := by
  have hnh : (List.take ((mid + hd + 7) / 8) raw).length = (mid + hd + 7) / 8 := by
    rw [List.length_take]; omega
  have hBL : Bitmap.len ⟨raw, hd, tl⟩ = 8 * raw.length - (hd + tl) := by
    simp only [Bitmap.len]
  have hHL : Bitmap.len ⟨raw.take ((mid + hd + 7) / 8), hd,
      8 * (raw.take ((mid + hd + 7) / 8)).length - (mid + hd)⟩ = mid := by
    simp only [Bitmap.len]
    rw [hnh]
    omega
  have hTH : (if (mid + hd) % 8 = 0 then 0
      else 8 - (8 * (List.take ((mid + hd + 7) / 8) raw).length - (mid + hd)))
      = (mid + hd) % 8 := by
    rw [hnh]
    split <;> omega
  have hTL : Bitmap.len ⟨raw.drop ((mid + hd) / 8),
      if (mid + hd) % 8 = 0 then 0
      else 8 - (8 * (List.take ((mid + hd + 7) / 8) raw).length - (mid + hd)),
      tl⟩ = (8 * raw.length - (hd + tl)) - mid := by
    simp only [Bitmap.len, List.length_drop]
    rw [hTH]
    omega
  refine ⟨⟨raw.take ((mid + hd + 7) / 8), hd,
           8 * (raw.take ((mid + hd + 7) / 8)).length - (mid + hd)⟩,
          ⟨raw.drop ((mid + hd) / 8),
           if (mid + hd) % 8 = 0 then 0
           else 8 - (8 * (raw.take ((mid + hd + 7) / 8)).length - (mid + hd)),
           tl⟩, ?_, hHL, ?_, ?_, ?_, ?_⟩
  · simp only [Bitmap.split_at, Bitmap.len]
    rw [if_pos (by omega)]
  · rw [hTL, hBL]
  · simp only [Bitmap.iter_cloned]
    rw [hHL, hTL, hBL, hTH]
    rw [flatBits_take, flatBits_drop, List.drop_take, List.take_take, List.drop_drop]
    rw [(by omega : min mid (8 * ((mid + hd + 7) / 8) - hd) = mid)]
    rw [(by omega : 8 * ((mid + hd) / 8) + (mid + hd) % 8 = mid + hd)]
    have h3 : (flatBits raw).drop (mid + hd) = ((flatBits raw).drop hd).drop mid := by
      rw [List.drop_drop]
      congr 1
      omega
    rw [h3, ← List.take_add]
    congr 1
    omega
  · refine ⟨h7, ?_, ?_, ?_⟩
    · dsimp only
      rw [hnh]
      omega
    · dsimp only
      simp only [Bitmap.len]
      rw [hnh]
      omega
    · rw [hHL]
      intro h0
      by_cases hz : (mid + hd + 7) / 8 = 0
      · right
        dsimp only
        rw [hz, List.take_zero]
      · left
        dsimp only
        rw [hnh]
        omega
  · refine ⟨?_, t7, ?_, ?_⟩
    · dsimp only
      rw [hTH]
      omega
    · dsimp only
      simp only [Bitmap.len, List.length_drop]
      rw [hTH]
      omega
    · rw [hTL]
      intro h0
      by_cases hz : raw.length ≤ (mid + hd) / 8
      · right
        dsimp only
        rw [List.drop_eq_nil_iff]
        exact hz
      · left
        dsimp only
        rw [hTH]
        omega

/-- C1: for every invariant-satisfying `Bitmap` and every `mid <= len()`,
`split_at(mid)` returns a head of length `mid` and a tail of length
`len() - mid` whose iterated sequences concatenate to the original
sequence; for `mid > len()` it panics (modelled as `none`). -/
theorem bitmap_split_at_correct (b : Bitmap) (hb : b.Inv) (mid : Nat) :
    match b.split_at mid with
    | some (head, tail) =>
        mid ≤ b.len ∧ head.len = mid ∧ tail.len = b.len - mid ∧
        head.iter_cloned ++ tail.iter_cloned = b.iter_cloned
    | none => b.len < mid := by
  obtain ⟨raw, hd, tl⟩ := b
  obtain ⟨h7, t7, hlen, -⟩ := hb
  dsimp only at hlen
  have hBL : Bitmap.len ⟨raw, hd, tl⟩ = 8 * raw.length - (hd + tl) := by
    simp only [Bitmap.len]
  rw [hBL] at hlen
  by_cases h : mid ≤ 8 * raw.length - (hd + tl)
  · obtain ⟨head, tail, hsome, hl1, hl2, hl3, -, -⟩ :=
      Bitmap.split_at_spec raw hd tl mid h7 t7 (by omega)
    rw [hsome]
    exact ⟨by rw [hBL]; omega, hl1, hl2, hl3⟩
  · have hnone : Bitmap.split_at ⟨raw, hd, tl⟩ mid = none := by
      simp only [Bitmap.split_at]
      rw [if_neg (by rw [hBL]; omega)]
    rw [hnone]
    show Bitmap.len ⟨raw, hd, tl⟩ < mid
    rw [hBL]
    omega

/-- Witness for C1 at the spec's concrete scenario 2: bytes `[0xFF, 0x01]`,
logical length 9, split at 8. -/
theorem bitmap_split_at_correct_witness :
    (match (Bitmap.mk [255, 1] 0 7).split_at 8 with
      | some (head, tail) =>
          8 ≤ (Bitmap.mk [255, 1] 0 7).len ∧ head.len = 8 ∧
          tail.len = (Bitmap.mk [255, 1] 0 7).len - 8 ∧
          head.iter_cloned ++ tail.iter_cloned = (Bitmap.mk [255, 1] 0 7).iter_cloned
      | none => (Bitmap.mk [255, 1] 0 7).len < 8) :=
  bitmap_split_at_correct ⟨[255, 1], 0, 7⟩ (by unfold Bitmap.Inv; decide) 8

/-- Embedding of the per-chunk byte packing done by the `bits_to_bitmap`
test helper of src/bitmap.rs (`byte |= (bit as u8) << idx`): bit `i` of the
chunk contributes `2 ^ i`. -/
def packByte : List Bool → Nat
  | [] => 0
  | c :: cs => (if c then 1 else 0) + 2 * packByte cs

/-- Embedding of the `bits_to_bitmap` test helper of src/bitmap.rs: pack a
boolean sequence into `ceil(n / 8)` bytes, eight bits per byte, least
significant bit first. -/
def packBits (bits : List Bool) : List Nat :=
  if h : bits = [] then []
  else packByte (bits.take 8) :: packBits (bits.drop 8)
termination_by bits.length
decreasing_by
  simp only [List.length_drop]
  have := List.length_pos.mpr h
  omega

lemma packBits_length (bits : List Bool) : (packBits bits).length = (bits.length + 7) / 8 := by
  induction bits using packBits.induct with
  | case1 => simp [packBits]
  | case2 bits h ih =>
    rw [packBits, dif_neg h, List.length_cons, ih, List.length_drop]
    have := List.length_pos.mpr h
    omega

lemma packByte_testBit (chunk : List Bool) (k : Nat) (h : chunk.length ≤ k) :
    (List.range k).map (packByte chunk).testBit
      = chunk ++ List.replicate (k - chunk.length) false := by
  induction k generalizing chunk with
  | zero =>
    have hc : chunk = [] := List.eq_nil_of_length_eq_zero (by omega)
    subst hc
    simp
  | succ k ih =>
    cases chunk with
    | nil =>
      show (List.range (k + 1)).map (packByte []).testBit = _
      have hz : (packByte []).testBit = fun _ : Nat => false := by
        funext i
        exact Nat.zero_testBit i
      rw [hz]
      simp [List.map_const']
    | cons c cs =>
      rw [List.range_succ_eq_map, List.map_cons, List.map_map]
      have h0 : (packByte (c :: cs)).testBit 0 = c := by
        simp only [packByte, Nat.testBit_zero]
        cases c <;> simp <;> omega
      have hdiv : packByte (c :: cs) / 2 = packByte cs := by
        simp only [packByte]
        cases c <;> simp <;> omega
      have hsucc : ((packByte (c :: cs)).testBit ∘ Nat.succ) = (packByte cs).testBit := by
        funext i
        simp only [Function.comp_apply]
        rw [Nat.testBit_add_one, hdiv]
      rw [h0, hsucc, ih cs (by simp only [List.length_cons] at h; omega)]
      simp [Nat.succ_sub_succ]

lemma byteBits_packByte (chunk : List Bool) (h : chunk.length ≤ 8) :
    byteBits (packByte chunk) = chunk ++ List.replicate (8 - chunk.length) false :=
  packByte_testBit chunk 8 h

lemma flatBits_packBits (bits : List Bool) :
    flatBits (packBits bits)
      = bits ++ List.replicate (8 * (packBits bits).length - bits.length) false := by
  induction bits using packBits.induct with
  | case1 => simp [packBits, flatBits]
  | case2 bits h ih =>
    rw [packBits, dif_neg h]
    rw [flatBits_cons, byteBits_packByte (bits.take 8) (by rw [List.length_take]; omega), ih]
    rw [List.length_cons, List.length_drop]
    by_cases hlen : 8 ≤ bits.length
    · have htake : (bits.take 8).length = 8 := by rw [List.length_take]; omega
      rw [htake]
      simp only [Nat.sub_self, List.replicate_zero, List.append_nil]
      rw [← List.append_assoc, List.take_append_drop]
      rw [List.append_cancel_left_eq]
      congr 1
      rw [packBits_length, List.length_drop]
      omega
    · have hdrop : bits.drop 8 = [] := List.drop_eq_nil_of_le (by omega)
      have htake : bits.take 8 = bits := List.take_of_length_le (by omega)
      rw [hdrop, htake]
      have hnil : packBits ([] : List Bool) = [] := by simp [packBits]
      rw [hnil]
      simp only [List.length_nil, Nat.mul_zero, Nat.zero_sub, List.replicate_zero,
        List.nil_append, List.append_nil, Nat.zero_add, Nat.mul_one]

/-- C2: packing any boolean sequence least-significant-bit-first into
`ceil(n / 8)` bytes and constructing a `Bitmap` over them with claimed
length `n` iterates back to exactly the original sequence, including the
empty one; in particular byte `0b00000101` with `array_len = 3` iterates
as `[true, false, true]`. -/
theorem bitmap_pack_roundtrip :
    (∀ bits : List Bool, ∃ bm, Bitmap.new (packBits bits) bits.length = some bm ∧
        bm.iter_cloned = bits) ∧
    (Bitmap.new [5] 3).map Bitmap.iter_cloned = some [true, false, true] := by
  constructor
  · intro bits
    have hl : (packBits bits).length = (bits.length + 7) / 8 := packBits_length bits
    have hcond : bits.length ≤ 8 * (packBits bits).length ∧
        8 * (packBits bits).length - bits.length < 8 := by omega
    refine ⟨⟨packBits bits, 0, 8 * (packBits bits).length - bits.length⟩, ?_, ?_⟩
    · simp only [Bitmap.new]
      rw [if_pos hcond]
    · have hblen : Bitmap.len
          ⟨packBits bits, 0, 8 * (packBits bits).length - bits.length⟩ = bits.length := by
        simp only [Bitmap.len]
        omega
      simp only [Bitmap.iter_cloned, hblen, List.drop_zero]
      rw [flatBits_packBits]
      exact List.take_left ..
  · decide

/-- C7: `Bitmap::new(raw, array_len)` panics exactly when
`raw.len() * 8 - array_len` is outside `[0, 8)`, equivalently when
`raw.len() != ceil(array_len / 8)`; on success the bitmap has
`header_len = 0`, `trailer_len = raw.len() * 8 - array_len`,
`len() = array_len` and is empty iff `array_len = 0`. -/
theorem bitmap_new_spec (raw : List Nat) (n : Nat) :
    match Bitmap.new raw n with
    | none =>
        ¬(n ≤ 8 * raw.length ∧ 8 * raw.length - n < 8) ∧ raw.length ≠ (n + 7) / 8
    | some bm =>
        raw.length = (n + 7) / 8 ∧ bm.header_len = 0 ∧
        bm.trailer_len = 8 * raw.length - n ∧ bm.len = n ∧
        (bm.is_empty = true ↔ n = 0) := by
  by_cases h : n ≤ 8 * raw.length ∧ 8 * raw.length - n < 8
  · have hsome : Bitmap.new raw n = some ⟨raw, 0, 8 * raw.length - n⟩ := by
      simp only [Bitmap.new]
      rw [if_pos h]
    rw [hsome]
    refine ⟨by omega, rfl, rfl, ?_, ?_⟩
    · simp only [Bitmap.len]
      omega
    · simp only [Bitmap.is_empty, Bitmap.len, beq_iff_eq]
      omega
  · have hnone : Bitmap.new raw n = none := by
      simp only [Bitmap.new]
      rw [if_neg h]
    rw [hnone]
    exact ⟨h, by omega⟩

/-- C9 counterexample: `Bitmap::new(&[], 0)` succeeds and returns a
logically empty bitmap whose header and trailer lengths sum to 0, not 8,
refuting the claim that every empty reachable bitmap has
`header_len + trailer_len == 8`. -/
theorem bitmap_empty_inv_counterexample :
    Bitmap.new [] 0 = some ⟨[], 0, 0⟩ ∧ (Bitmap.mk [] 0 0).len = 0 ∧
      (Bitmap.mk [] 0 0).header_len + (Bitmap.mk [] 0 0).trailer_len ≠ 8 :=
  ⟨by decide, rfl, by decide⟩

/-- C9 (amended): every bitmap reachable through `Bitmap::new` or either
side of `Bitmap::split_at` satisfies the structural invariant, where the
empty-bitmap clause `header_len + trailer_len == 8` admits the
empty-buffer bitmap as the one exception. -/
theorem bitmap_reachable_inv :
    (∀ raw n bm, Bitmap.new raw n = some bm → bm.Inv) ∧
    (∀ (b : Bitmap) (mid : Nat) p, b.Inv → b.split_at mid = some p →
      p.1.Inv ∧ p.2.Inv) := by
  constructor
  · intro raw n bm hbm
    simp only [Bitmap.new] at hbm
    split at hbm
    · rename_i hc
      injection hbm with hbm
      subst hbm
      have hblen : Bitmap.len ⟨raw, 0, 8 * raw.length - n⟩ = n := by
        simp only [Bitmap.len]
        omega
      refine ⟨by dsimp only; omega, by dsimp only; omega, ?_, ?_⟩
      · rw [hblen]
        dsimp only
        omega
      · rw [hblen]
        intro h0
        right
        dsimp only
        rw [← List.length_eq_zero]
        omega
    · exact absurd hbm (by simp)
  · intro b mid p hb hsplit
    obtain ⟨raw, hd, tl⟩ := b
    obtain ⟨h7, t7, hlen, -⟩ := hb
    dsimp only at hlen
    have hBL : Bitmap.len ⟨raw, hd, tl⟩ = 8 * raw.length - (hd + tl) := by
      simp only [Bitmap.len]
    rw [hBL] at hlen
    by_cases h : mid ≤ 8 * raw.length - (hd + tl)
    · obtain ⟨head, tail, hsome, -, -, -, hInv1, hInv2⟩ :=
        Bitmap.split_at_spec raw hd tl mid h7 t7 (by omega)
      rw [hsome] at hsplit
      injection hsplit with hsplit
      subst hsplit
      exact ⟨hInv1, hInv2⟩
    · have hnone : Bitmap.split_at ⟨raw, hd, tl⟩ mid = none := by
        simp only [Bitmap.split_at]
        rw [if_neg (by rw [hBL]; omega)]
      rw [hnone] at hsplit
      exact absurd hsplit (by simp)

/-- Witness for C9: the bitmap built by `new([5], 3)` and both halves of
splitting the scenario-2 bitmap `([0xFF, 0x01], 9)` at 8 satisfy the
amended invariant. -/
theorem bitmap_reachable_inv_witness :
    (Bitmap.mk [5] 0 5).Inv ∧ (Bitmap.mk [255] 0 0).Inv ∧ (Bitmap.mk [1] 0 7).Inv :=
  ⟨bitmap_reachable_inv.1 [5] 3 ⟨[5], 0, 5⟩ (by decide),
   (bitmap_reachable_inv.2 ⟨[255, 1], 0, 7⟩ 8 (⟨[255], 0, 0⟩, ⟨[1], 0, 7⟩)
      (by unfold Bitmap.Inv; decide) (by decide)).1,
   (bitmap_reachable_inv.2 ⟨[255, 1], 0, 7⟩ 8 (⟨[255], 0, 0⟩, ⟨[1], 0, 7⟩)
      (by unfold Bitmap.Inv; decide) (by decide)).2⟩

/-- Embedding of `OffsetSublists` from src/element/list.rs: the absolute
start offset of each sublist within the original (pre-split) items buffer,
plus the total number of items of the current view. Arrow offsets are
signed integers; `OffsetSizeTrait::as_usize` is modelled by `Int.toNat`. -/
structure OffsetSublists where
  original_offsets : List Int
  total_len : Nat
deriving DecidableEq

/-- Embedding of `OffsetSublists::offset_shift`: the first stored offset,
or 0 when no offset is stored. -/
def OffsetSublists.offset_shift (s : OffsetSublists) : Nat :=
  (s.original_offsets.head?.map Int.toNat).getD 0

/-- Embedding of `Slice::split_at` for `OffsetSublists`; `none` models the
panic of `<[OffsetSize]>::split_at` when `mid` exceeds the number of
stored offsets. -/
def OffsetSublists.split_at (s : OffsetSublists) (mid : Nat) :
    Option (OffsetSublists × OffsetSublists) :=
  if mid ≤ s.original_offsets.length then
    let left_offsets := s.original_offsets.take mid
    let right_offsets := s.original_offsets.drop mid
    match right_offsets.head? with
    | none => some (⟨left_offsets, s.total_len⟩, ⟨right_offsets, 0⟩)
    | some right_offset =>
        let relative_offset := right_offset.toNat - s.offset_shift
        some (⟨left_offsets, relative_offset⟩,
              ⟨right_offsets, s.total_len - relative_offset⟩)
  else
    none

/-- C3 counterexample: take the fresh view over offsets `[0, 1, 2]` with 2
items, split it at 1, and split the resulting right-hand view `([1, 2], 1)`
at 1 again. The code sets the left `total_len` to 1, the offset of the
first right-side element *relative* to the view (`2 - 1`), not to its
absolute offset 2 as the claim states. -/
theorem offset_sublists_split_at_counterexample :
    (OffsetSublists.split_at ⟨[0, 1, 2], 2⟩ 1).map (fun p => p.2)
      = some ⟨[1, 2], 1⟩ ∧
    (OffsetSublists.split_at ⟨[1, 2], 1⟩ 1).map (fun p => p.1.total_len) = some 1 ∧
    ((⟨[1, 2], 1⟩ : OffsetSublists).original_offsets.drop 1).head? = some 2 ∧
    (1 : Nat) ≠ (2 : Int).toNat :=
  ⟨by decide, by decide, by decide, by decide⟩

/-- C3 (amended): for `mid` at most the number of stored offsets,
`OffsetSublists::split_at(mid)` splits the offsets array at `mid`, sets
the left view's `total_len` to the offset of the first right-side element
relative to the view's offset shift (its absolute stored offset minus the
first stored offset) — or to the original `total_len` when the right side
is empty — and sets the right view's `total_len` to the original
`total_len` minus the left view's `total_len`; for larger `mid` the
underlying slice split panics. Because the statement quantifies over
every view, it covers views that are themselves the result of previous
splits. -/
theorem offset_sublists_split_at_spec (s : OffsetSublists) (mid : Nat) :
    match s.split_at mid with
    | some (l, r) =>
        mid ≤ s.original_offsets.length ∧
        l.original_offsets = s.original_offsets.take mid ∧
        r.original_offsets = s.original_offsets.drop mid ∧
        l.total_len = ((s.original_offsets[mid]?).map
            (fun o => o.toNat - s.offset_shift)).getD s.total_len ∧
        r.total_len = s.total_len - l.total_len
    | none => s.original_offsets.length < mid := by
  by_cases h : mid ≤ s.original_offsets.length
  · cases hh : (s.original_offsets.drop mid).head? with
    | none =>
      have hs : s.split_at mid
          = some (⟨s.original_offsets.take mid, s.total_len⟩,
                  ⟨s.original_offsets.drop mid, 0⟩) := by
        simp only [OffsetSublists.split_at, hh]
        rw [if_pos h]
      rw [hs]
      refine ⟨h, rfl, rfl, ?_, by simp⟩
      rw [← List.head?_drop, hh]
      simp
    | some o =>
      have hs : s.split_at mid
          = some (⟨s.original_offsets.take mid, o.toNat - s.offset_shift⟩,
                  ⟨s.original_offsets.drop mid,
                   s.total_len - (o.toNat - s.offset_shift)⟩) := by
        simp only [OffsetSublists.split_at, hh]
        rw [if_pos h]
      rw [hs]
      refine ⟨h, rfl, rfl, ?_, rfl⟩
      rw [← List.head?_drop, hh]
      simp
  · have hs : s.split_at mid = none := by
      simp only [OffsetSublists.split_at]
      rw [if_neg h]
    rw [hs]
    omega

/-- Embedding of `ValidSublist` from src/element/list.rs: the position and
item count of one sublist within `ListSlice::items`. -/
structure ValidSublist where
  offset : Nat
  len : Nat
deriving DecidableEq

/-- Embedding of `OptionSublist` from src/element/list.rs: a sublist that
may be invalid (null). -/
structure OptionSublist where
  sublist : ValidSublist
  is_valid : Bool
deriving DecidableEq

/-- Embedding of `OptionSublist::from_option_len`: an absent length means
an invalid sublist of length 0. -/
def OptionSublist.from_option_len (offset : Nat) (len : Option Nat) : OptionSublist :=
  ⟨⟨offset, len.getD 0⟩, len.isSome⟩

/-- Embedding of `SublistSlice::last_sublist` for `&[usize]`
(src/element/list.rs): the last length with the sum of the previous ones
as offset, or `none` for an empty length array. -/
def lastSublistLens (lens : List Nat) : Option ValidSublist :=
  match lens.getLast? with
  | none => none
  | some len => some ⟨lens.dropLast.sum, len⟩

/-- Embedding of `SublistSlice::get_sublist_unchecked` for `&[usize]`. -/
def getSublistLens (lens : List Nat) (index : Nat) : ValidSublist :=
  ⟨(lens.take index).sum, lens.getD index 0⟩

/-- Embedding of the `SublistSlice::sublist_at` default method for
`&[usize]`: `none` models its `assert!(self.is_consistent() && index <
self.len())` panic (a `&[usize]` is always consistent). -/
def sublist_atLens (lens : List Nat) (index : Nat) : Option ValidSublist :=
  if index < lens.length then some (getSublistLens lens index) else none

/-- Embedding of `ListWriteSlice` = `ListSlice<Items, &[usize]>` from
src/element/list.rs, instantiated with integer items: the concatenated
items of all sublists plus one explicit length per sublist. -/
structure ListWriteSlice where
  items : List Int
  lists : List Nat
deriving DecidableEq

/-- Embedding of `Slice::len` for `ListSlice`. -/
def ListWriteSlice.len (s : ListWriteSlice) : Nat :=
  s.lists.length

/-- Embedding of `Slice::is_consistent` for `ListSlice` over `&[usize]`
lengths (flat `items` and `lists` slices are trivially consistent):
`items.len() == lists.last_sublist().map_or(0, |s| s.offset() + s.len())`. -/
def ListWriteSlice.is_consistent (s : ListWriteSlice) : Bool :=
  s.items.length == (match lastSublistLens s.lists with
    | none => 0
    | some sub => sub.offset + sub.len)

/-- Embedding of `Slice::iter_cloned` for `ListSlice` over `&[usize]`
lengths: a running cursor over `items` from which each sublist length is
split off in turn. Under the consistency precondition every split is in
bounds, so the panicking `<[T]>::split_at` coincides with `take`/`drop`. -/
def ListWriteSlice.iter_cloned (s : ListWriteSlice) : List (List Int) :=
  go s.items s.lists
where
  go : List Int → List Nat → List (List Int)
    | _, [] => []
    | items, len :: rest => items.take len :: go (items.drop len) rest

/-- Embedding of `Slice::split_at` for `ListSlice` over `&[usize]`
lengths: locate the offset of sublist `mid` through `sublist_at` (whose
assertion panics when `mid` is not strictly below the number of sublists,
modelled by `none`), then split `lists` at `mid` and `items` at that
offset. -/
def ListWriteSlice.split_at (s : ListWriteSlice) (mid : Nat) :
    Option (ListWriteSlice × ListWriteSlice) :=
  match sublist_atLens s.lists mid with
  | none => none
  | some sub =>
      some (⟨s.items.take sub.offset, s.lists.take mid⟩,
            ⟨s.items.drop sub.offset, s.lists.drop mid⟩)

/-- Embedding of `SublistSlice::last_sublist` for `&[Option<usize>]`
(src/element/list.rs): the offset accumulates `len.unwrap_or(0)` over the
previous entries. -/
def lastSublistOptLens (lens : List (Option Nat)) : Option OptionSublist :=
  match lens.getLast? with
  | none => none
  | some len =>
      some (OptionSublist.from_option_len
        (lens.dropLast.foldl (fun acc l => acc + l.getD 0) 0) len)

/-- Embedding of `SublistSlice::get_sublist_unchecked` for
`&[Option<usize>]`. -/
def getSublistOptLens (lens : List (Option Nat)) (index : Nat) : OptionSublist :=
  OptionSublist.from_option_len
    ((lens.take index).foldl (fun acc l => acc + l.getD 0) 0)
    (lens.getD index none)

/-- Embedding of `OptionListWriteSlice` = `ListSlice<Items,
&[Option<usize>]>` from src/element/list.rs, instantiated with integer
items: each sublist carries an optional explicit length, `None` denoting a
null sublist. -/
structure OptionListWriteSlice where
  items : List Int
  lists : List (Option Nat)
deriving DecidableEq

/-- Embedding of `Slice::len` for the optional-lengths `ListSlice`. -/
def OptionListWriteSlice.len (s : OptionListWriteSlice) : Nat :=
  s.lists.length

/-- Embedding of `Slice::is_consistent` for `ListSlice` over
`&[Option<usize>]` lengths. -/
def OptionListWriteSlice.is_consistent (s : OptionListWriteSlice) : Bool :=
  s.items.length == (match lastSublistOptLens s.lists with
    | none => 0
    | some sub => sub.sublist.offset + sub.sublist.len)

/-- Embedding of `Slice::iter_cloned` for `ListSlice` over
`&[Option<usize>]` lengths: invalid sublists consume `unwrap_or(0) = 0`
items and are reported as `none` by `apply_validity`. -/
def OptionListWriteSlice.iter_cloned (s : OptionListWriteSlice) :
    List (Option (List Int)) :=
  go s.items s.lists
where
  go : List Int → List (Option Nat) → List (Option (List Int))
    | _, [] => []
    | items, len :: rest =>
        (if len.isSome then some (items.take (len.getD 0)) else none)
          :: go (items.drop (len.getD 0)) rest

lemma lastSublistLens_sum (lens : List Nat) :
    (match lastSublistLens lens with
      | none => 0
      | some sub => sub.offset + sub.len) = lens.sum := by
  induction lens using List.reverseRecOn with
  | nil => rfl
  | append_singleton xs x ih =>
    simp [lastSublistLens, List.getLast?_concat, List.dropLast_concat, List.sum_append]

lemma foldl_add_getD (lens : List (Option Nat)) (a : Nat) :
    lens.foldl (fun acc l => acc + l.getD 0) a = a + (lens.map (fun l => l.getD 0)).sum := by
  induction lens generalizing a with
  | nil => simp
  | cons x xs ih =>
    simp only [List.foldl_cons, List.map_cons, List.sum_cons, ih]
    omega

lemma lastSublistOptLens_sum (lens : List (Option Nat)) :
    (match lastSublistOptLens lens with
      | none => 0
      | some sub => sub.sublist.offset + sub.sublist.len)
      = (lens.map (fun l => l.getD 0)).sum := by
  induction lens using List.reverseRecOn with
  | nil => rfl
  | append_singleton xs x ih =>
    simp [lastSublistOptLens, List.getLast?_concat, List.dropLast_concat,
      OptionSublist.from_option_len, foldl_add_getD, List.sum_append]

lemma listWriteSlice_iter_go_flatten (lens : List Nat) (items : List Int)
    (h : items.length = lens.sum) :
    (ListWriteSlice.iter_cloned.go items lens).flatten = items := by
  induction lens generalizing items with
  | nil =>
    have : items = [] := List.eq_nil_of_length_eq_zero (by simpa using h)
    subst this
    rfl
  | cons len rest ih =>
    simp only [ListWriteSlice.iter_cloned.go, List.flatten_cons]
    rw [ih (items.drop len) (by simp only [List.length_drop]; simp at h; omega)]
    exact List.take_append_drop len items

lemma optionListWriteSlice_iter_go_flatten (lens : List (Option Nat)) (items : List Int)
    (h : items.length = (lens.map (fun l => l.getD 0)).sum) :
    ((OptionListWriteSlice.iter_cloned.go items lens).map
      (fun o => o.getD [])).flatten = items := by
  induction lens generalizing items with
  | nil =>
    have : items = [] := List.eq_nil_of_length_eq_zero (by simpa using h)
    subst this
    rfl
  | cons len rest ih =>
    simp only [OptionListWriteSlice.iter_cloned.go, List.map_cons, List.flatten_cons]
    have hhead : (if len.isSome then some (items.take (len.getD 0)) else none).getD []
        = items.take (len.getD 0) := by
      cases len <;> simp
    rw [hhead, ih (items.drop (len.getD 0))
      (by simp only [List.length_drop]; simp at h; omega)]
    exact List.take_append_drop (len.getD 0) items

/-- C4: a `ListSlice` (with either optional or plain explicit lengths over
trivially consistent flat slices) is consistent exactly when `items.len()`
equals the sum of the sublist lengths, null sublists counting as 0; and
for every consistent slice, concatenating the materialized sublists from
iteration (with null sublists contributing nothing) reproduces `items`
exactly. -/
theorem list_slice_sum_law :
    (∀ s : OptionListWriteSlice,
      (s.is_consistent = true ↔
        s.items.length = (s.lists.map (fun l => l.getD 0)).sum) ∧
      (s.is_consistent = true →
        ((s.iter_cloned.map (fun o => o.getD [])).flatten = s.items))) ∧
    (∀ s : ListWriteSlice,
      (s.is_consistent = true ↔ s.items.length = s.lists.sum) ∧
      (s.is_consistent = true → s.iter_cloned.flatten = s.items)) := by
  constructor
  · intro s
    have hiff : s.is_consistent = true ↔
        s.items.length = (s.lists.map (fun l => l.getD 0)).sum := by
      simp only [OptionListWriteSlice.is_consistent, beq_iff_eq, lastSublistOptLens_sum]
    refine ⟨hiff, fun hc => ?_⟩
    exact optionListWriteSlice_iter_go_flatten s.lists s.items (hiff.mp hc)
  · intro s
    have hiff : s.is_consistent = true ↔ s.items.length = s.lists.sum := by
      simp only [ListWriteSlice.is_consistent, beq_iff_eq, lastSublistLens_sum]
    refine ⟨hiff, fun hc => ?_⟩
    exact listWriteSlice_iter_go_flatten s.lists s.items (hiff.mp hc)

/-- Witness for C4 at the spec's concrete scenario 3 plus a null sublist:
`items = [1, 2, 3, 4, 5]`, lengths `[some 2, none, some 3]` and
`[2, 0, 3]` both flatten back to `items`. -/
theorem list_slice_sum_law_witness :
    (((OptionListWriteSlice.mk [1, 2, 3, 4, 5] [some 2, none, some 3]).iter_cloned.map
        (fun o => o.getD [])).flatten = [1, 2, 3, 4, 5]) ∧
    ((ListWriteSlice.mk [1, 2, 3, 4, 5] [2, 0, 3]).iter_cloned.flatten
        = [1, 2, 3, 4, 5]) :=
  ⟨(list_slice_sum_law.1 ⟨[1, 2, 3, 4, 5], [some 2, none, some 3]⟩).2 (by decide),
   (list_slice_sum_law.2 ⟨[1, 2, 3, 4, 5], [2, 0, 3]⟩).2 (by decide)⟩

/-- C6 evidence: the spec's scenario-3 list slice (`items = [1, 2, 3, 4,
5]`, `lengths = [2, 0, 3]`) is consistent and `split_at(1)` succeeds with
the documented halves, but `split_at(3)` with `mid == len()` panics
(`none`), because `sublist_at` asserts `index < self.len()`; the claim
(and the `Slice::split_at` contract, which only allows panicking when the
slice has fewer than `mid` elements) requires the boundary split to
succeed with an empty tail. -/
theorem list_slice_split_at_boundary_bug :
    (ListWriteSlice.mk [1, 2, 3, 4, 5] [2, 0, 3]).is_consistent = true ∧
    (ListWriteSlice.mk [1, 2, 3, 4, 5] [2, 0, 3]).split_at 1
      = some (⟨[1, 2], [2]⟩, ⟨[3, 4, 5], [0, 3]⟩) ∧
    (ListWriteSlice.mk [1, 2, 3, 4, 5] [2, 0, 3]).split_at 3 = none :=
  ⟨by decide, by decide, by decide⟩

lemma foldl_push_eq_append {α : Type} (l : List α) (st : List α) :
    l.foldl (fun acc v => acc ++ [v]) st = st ++ l := by
  induction l generalizing st with
  | nil => simp
  | cons x xs ih =>
    simp only [List.foldl_cons, ih]
    simp

/-- Embedding of `TypedBackend::<List>::extend_from_slice` from
src/builder/backend/list.rs: the builder state is the sequence of
sublists pushed so far; an inconsistent slice yields the recoverable
error and leaves the state untouched, a consistent one pushes every
iterated sublist. -/
def extend_from_sliceList (state : List (List Int)) (s : ListWriteSlice) :
    List (List Int) × Option String :=
  if s.is_consistent then
    (s.iter_cloned.foldl (fun acc sublist => acc ++ [sublist]) state, none)
  else
    (state, some "sum of sublist lengths should equate value buffer length")

/-- Embedding of `TypedBackend::<Option<List>>::extend_from_slice` from
src/builder/backend/list.rs, with the state as the sequence of pushed
optional sublists (`push(None)` appends a null). -/
def extend_from_sliceOptList (state : List (Option (List Int)))
    (s : OptionListWriteSlice) : List (Option (List Int)) × Option String :=
  if s.is_consistent then
    (s.iter_cloned.foldl (fun acc sublist => acc ++ [sublist]) state, none)
  else
    (state, some "sum of sublist lengths should equate value buffer length")

/-- C8: bulk insertion of an explicit-length list slice whose length sum
does not match the items buffer returns the recoverable error captioned
"sum of sublist lengths should equate value buffer length" and leaves the
builder state unchanged; a consistent slice appends every sublist and
reports no error. This holds for both the plain and the optional list
backends. -/
theorem list_builder_extend_from_slice_spec :
    (∀ (state : List (List Int)) (s : ListWriteSlice),
      (s.items.length ≠ s.lists.sum →
        extend_from_sliceList state s
          = (state, some "sum of sublist lengths should equate value buffer length")) ∧
      (s.items.length = s.lists.sum →
        extend_from_sliceList state s = (state ++ s.iter_cloned, none))) ∧
    (∀ (state : List (Option (List Int))) (s : OptionListWriteSlice),
      (s.items.length ≠ (s.lists.map (fun l => l.getD 0)).sum →
        extend_from_sliceOptList state s
          = (state, some "sum of sublist lengths should equate value buffer length")) ∧
      (s.items.length = (s.lists.map (fun l => l.getD 0)).sum →
        extend_from_sliceOptList state s = (state ++ s.iter_cloned, none))) := by
  constructor
  · intro state s
    have hiff : s.is_consistent = true ↔ s.items.length = s.lists.sum := by
      simp only [ListWriteSlice.is_consistent, beq_iff_eq, lastSublistLens_sum]
    constructor
    · intro hne
      have : ¬ s.is_consistent = true := fun hc => hne (hiff.mp hc)
      simp only [extend_from_sliceList, Bool.not_eq_true] at this ⊢
      rw [this]
      simp
    · intro he
      simp only [extend_from_sliceList]
      rw [hiff.mpr he]
      simp [foldl_push_eq_append]
  · intro state s
    have hiff : s.is_consistent = true ↔
        s.items.length = (s.lists.map (fun l => l.getD 0)).sum := by
      simp only [OptionListWriteSlice.is_consistent, beq_iff_eq, lastSublistOptLens_sum]
    constructor
    · intro hne
      have : ¬ s.is_consistent = true := fun hc => hne (hiff.mp hc)
      simp only [extend_from_sliceOptList, Bool.not_eq_true] at this ⊢
      rw [this]
      simp
    · intro he
      simp only [extend_from_sliceOptList]
      rw [hiff.mpr he]
      simp [foldl_push_eq_append]

/-- Witness for C8: a mismatched slice (`items = [1]`, `lengths = [2]`)
errors and leaves the empty builder state unchanged, while the scenario-3
slice is appended in full. -/
theorem list_builder_extend_from_slice_spec_witness :
    (extend_from_sliceList [] ⟨[1], [2]⟩
      = ([], some "sum of sublist lengths should equate value buffer length")) ∧
    (extend_from_sliceList [] ⟨[1, 2, 3, 4, 5], [2, 0, 3]⟩
      = ([[1, 2], [], [3, 4, 5]], none)) :=
  ⟨(list_builder_extend_from_slice_spec.1 [] ⟨[1], [2]⟩).1 (by decide),
   (list_builder_extend_from_slice_spec.1 [] ⟨[1, 2, 3, 4, 5], [2, 0, 3]⟩).2 (by decide)⟩

/-- Embedding of `OptionWriteSlice` = `OptionSlice<Values, &[bool]>` from
src/element/option.rs, instantiated with integer values: a values slice
zipped against a validity slice. -/
structure OptionWriteSlice where
  is_valid : List Bool
  values : List Int
deriving DecidableEq

/-- Embedding of `Slice::is_consistent` for `OptionSlice` (flat `values`
and `is_valid` slices are trivially consistent):
`values.len() == is_valid.len()`. -/
def OptionWriteSlice.is_consistent (s : OptionWriteSlice) : Bool :=
  s.values.length == s.is_valid.length

/-- Embedding of `Slice::len` for `OptionSlice`: `is_valid.len()`. -/
def OptionWriteSlice.len (s : OptionWriteSlice) : Nat :=
  s.is_valid.length

/-- Embedding of `Slice::get_cloned_unchecked` for `OptionSlice`:
`is_valid[i].then_some(values[i])`. Out-of-range reads of the underlying
slices (unspecified behaviour in the source) are modelled by defaults. -/
def OptionWriteSlice.get_cloned_unchecked (s : OptionWriteSlice) (index : Nat) :
    Option Int :=
  if s.is_valid.getD index false then some (s.values.getD index 0) else none

/-- Embedding of the `Slice::get_cloned` default method: the unsafe
accessor runs only when the slice is consistent and the index in bounds. -/
def OptionWriteSlice.get_cloned (s : OptionWriteSlice) (index : Nat) :
    Option (Option Int) :=
  if s.is_consistent = true ∧ index < s.len then
    some (s.get_cloned_unchecked index)
  else
    none

/-- Embedding of the `Slice::at` default method (named `at'` because `at`
is reserved in Lean): `get_cloned(index).expect(...)`, whose panic on a
`none` is modelled by propagating the `none`. -/
def OptionWriteSlice.at' (s : OptionWriteSlice) (index : Nat) : Option (Option Int) :=
  s.get_cloned index

/-- Embedding of `Slice::iter_cloned` for `OptionSlice`: zip the values
with the validity bits. -/
def OptionWriteSlice.iter_cloned (s : OptionWriteSlice) : List (Option Int) :=
  List.zipWith (fun v b => if b then some v else none) s.values s.is_valid

/-- C5: an `OptionSlice` is consistent exactly when its values and
validity slices have equal length (each flat slice being trivially
consistent), and on a consistent slice every in-bounds index yields
`Some(values[i])` when `is_valid[i]` and `None` otherwise, through checked
access, panicking access and iteration alike; concretely
`values = [10, 20, 30]`, `is_valid = [true, false, true]` iterates as
`[Some(10), None, Some(30)]`. -/
theorem option_slice_spec :
    (∀ s : OptionWriteSlice,
      (s.is_consistent = true ↔ s.values.length = s.is_valid.length) ∧
      (s.is_consistent = true → ∀ i, i < s.len →
        s.get_cloned i
            = some (if s.is_valid.getD i false then some (s.values.getD i 0) else none) ∧
        s.at' i
            = some (if s.is_valid.getD i false then some (s.values.getD i 0) else none) ∧
        s.iter_cloned[i]?
            = some (if s.is_valid.getD i false then some (s.values.getD i 0) else none))) ∧
    (OptionWriteSlice.mk [true, false, true] [10, 20, 30]).iter_cloned
      = [some 10, none, some 30] := by
  constructor
  · intro s
    have hiff : s.is_consistent = true ↔ s.values.length = s.is_valid.length := by
      simp only [OptionWriteSlice.is_consistent, beq_iff_eq]
    refine ⟨hiff, fun hc i hi => ?_⟩
    have hlen : s.values.length = s.is_valid.length := hiff.mp hc
    have hgc : s.get_cloned i
        = some (if s.is_valid.getD i false then some (s.values.getD i 0) else none) := by
      simp only [OptionWriteSlice.get_cloned, OptionWriteSlice.get_cloned_unchecked]
      rw [if_pos ⟨hc, hi⟩]
    refine ⟨hgc, hgc, ?_⟩
    have hi' : i < s.values.length := by
      simp only [OptionWriteSlice.len] at hi
      omega
    have hi'' : i < s.is_valid.length := by
      simp only [OptionWriteSlice.len] at hi
      omega
    have hv : s.values[i]? = some (s.values.getD i 0) := by
      rw [List.getElem?_eq_getElem hi', List.getD_eq_getElem?_getD,
        List.getElem?_eq_getElem hi']
      rfl
    have hb : s.is_valid[i]? = some (s.is_valid.getD i false) := by
      rw [List.getElem?_eq_getElem hi'', List.getD_eq_getElem?_getD,
        List.getElem?_eq_getElem hi'']
      rfl
    simp only [OptionWriteSlice.iter_cloned]
    rw [List.getElem?_zipWith', hv, hb]
    rfl
  · decide

/-- Witness for C5 at the spec's concrete scenario 4, index 1 (the null
entry): checked access, panicking access and iteration all yield `None`
for the element. -/
theorem option_slice_spec_witness :
    (OptionWriteSlice.mk [true, false, true] [10, 20, 30]).get_cloned 1 = some none ∧
    (OptionWriteSlice.mk [true, false, true] [10, 20, 30]).at' 1 = some none ∧
    (OptionWriteSlice.mk [true, false, true] [10, 20, 30]).iter_cloned[1]? = some none :=
  (option_slice_spec.1 ⟨[true, false, true], [10, 20, 30]⟩).2 (by decide) 1 (by decide)

/-- Embedding of `Slice::get_cloned_unchecked` for `ListSlice` over
`&[Option<usize>]` lengths: look up sublist `index`, cut the corresponding
item range, and wrap it in the sublist's validity. -/
def OptionListWriteSlice.get_cloned_unchecked (s : OptionListWriteSlice)
    (index : Nat) : Option (List Int) :=
  let sub := getSublistOptLens s.lists index
  if sub.is_valid then
    some ((s.items.drop sub.sublist.offset).take sub.sublist.len)
  else
    none

/-- Embedding of the `Slice::get_cloned` default method for the
optional-lengths `ListSlice`. -/
def OptionListWriteSlice.get_cloned (s : OptionListWriteSlice) (index : Nat) :
    Option (Option (List Int)) :=
  if s.is_consistent = true ∧ index < s.len then
    some (s.get_cloned_unchecked index)
  else
    none

/-- Embedding of the `Slice::at` default method for the optional-lengths
`ListSlice` (named `at'` because `at` is reserved in Lean). -/
def OptionListWriteSlice.at' (s : OptionListWriteSlice) (index : Nat) :
    Option (Option (List Int)) :=
  s.get_cloned index

/-- C10: on any composite slice whose `is_consistent()` is false, the
default checked accessors are total and never reach the unchecked path:
`get_cloned` returns `None` and `at` panics (modelled as `none`),
regardless of the index. Shown for both composite slice shapes embedded
here, `OptionSlice` and the optional-lengths `ListSlice`. -/
theorem checked_access_inconsistent_total :
    (∀ (s : OptionWriteSlice) (i : Nat), s.is_consistent = false →
      s.get_cloned i = none ∧ s.at' i = none) ∧
    (∀ (s : OptionListWriteSlice) (i : Nat), s.is_consistent = false →
      s.get_cloned i = none ∧ s.at' i = none) := by
  constructor
  · intro s i h
    have hng : s.get_cloned i = none := by
      simp only [OptionWriteSlice.get_cloned]
      rw [if_neg]
      intro hcon
      rw [h] at hcon
      exact absurd hcon.1 (by simp)
    exact ⟨hng, hng⟩
  · intro s i h
    have hng : s.get_cloned i = none := by
      simp only [OptionListWriteSlice.get_cloned]
      rw [if_neg]
      intro hcon
      rw [h] at hcon
      exact absurd hcon.1 (by simp)
    exact ⟨hng, hng⟩

/-- Witness for C10: an `OptionSlice` with two values but one validity
bit, and a `ListSlice` with one item but no sublists, both inconsistent;
checked access at index 0 returns `None`/panics on both. -/
theorem checked_access_inconsistent_total_witness :
    ((OptionWriteSlice.mk [true] [10, 20]).get_cloned 0 = none ∧
      (OptionWriteSlice.mk [true] [10, 20]).at' 0 = none) ∧
    ((OptionListWriteSlice.mk [1] []).get_cloned 0 = none ∧
      (OptionListWriteSlice.mk [1] []).at' 0 = none) :=
  ⟨checked_access_inconsistent_total.1 ⟨[true], [10, 20]⟩ 0 (by decide),
   checked_access_inconsistent_total.2 ⟨[1], []⟩ 0 (by decide)⟩
